import Mathlib

set_option maxHeartbeats 1000000

/-!
Verification development for the EMotionFX `MCore::CommandManager`
(src/dev/Gems/EMotionFX/Code/MCore/Source/CommandManager.h).

The repository slice contains only the class declaration; apart from the
inline `AddError` (lines 265-266), the method bodies live in a
CommandManager.cpp that is not part of the slice.  The operations are
therefore modelled from the specification (spec.md §3, §4.1-§4.5, §7),
as noted on each definition.  `AddError` is embedded directly from the
source.

Machine integers: `AZ::u32` counters are modelled as `Nat`, the `int32`
history cursor as `Int` (the sentinel value -1 means "before the first
entry").  Commands act on an abstract observable external state,
modelled as `Int`; a command's execute/undo operations are fallible
(`Option`), matching the `(success, resultText)` results of the spec's
command contribution interface (§6).  Callback dispatch is observable
only through an append-only log of notification events.
-/

namespace MCore

/-- Parsed command-line parameters: the structured, re-queryable argument
list produced by the external command line parser (spec §6). -/
abbrev CommandLine := List String

/-- Observable external state acted on by commands. -/
abbrev ExtState := Int

/-- Modelled from the spec: the command contribution interface (§6.2) —
a unique name, an execute operation, an undo operation and an
"is undoable" flag.  `Command.cpp` is not in the slice.  Execution and
undo return `some newState` on success and `none` on failure. -/
structure Command where
  name : String
  isUndoable : Bool
  exec : CommandLine → ExtState → Option ExtState
  undo : CommandLine → ExtState → Option ExtState

/-- Modelled from the spec: a command group (§3, §4.3) — an ordered list
of pending invocations by name and parameters, plus the abort-on-failure
execution policy.  `CommandGroup.h/.cpp` are not in the slice. -/
structure CommandGroup where
  commands : List (String × CommandLine)
  abortOnFailure : Bool

/-- Payload of a history entry: a single executed command with its
parameters, or an executed group's resolved members in execution order
(CommandManager.h lines 62-64: `mCommandGroup` / `mExecutedCommand` /
`mParameters` — a discriminated union per spec §3). -/
inductive HistoryEntryData where
  | single : Command → CommandLine → HistoryEntryData
  | group : List (Command × CommandLine) → HistoryEntryData

/-- The command history entry (CommandManager.h struct CommandHistoryEntry):
the executed payload plus the global history item number, which never
changes with the size of the history queue nor with undo/redo. -/
structure CommandHistoryEntry where
  data : HistoryEntryData
  m_historyItemNr : Nat

/-- The command manager state (CommandManager.h lines 275-282), plus the
observable external state the commands act on and an append-only log of
dispatched callback notifications (the spec's callback dispatcher §4.4
is observable only through this log). -/
structure CommandManager where
  mRegisteredCommands : List Command
  mCommandHistory : List CommandHistoryEntry
  mErrors : List String
  mMaxHistoryEntries : Nat
  mHistoryIndex : Int
  m_totalNumHistoryItems : Nat
  extState : ExtState
  callbackLog : List String

/-- The freshly constructed manager: empty registry, empty history,
cursor before the first entry, default history bound 100 (spec §4.2:
"On default this value is 100"). -/
def initialManager : CommandManager :=
  { mRegisteredCommands := []
    mCommandHistory := []
    mErrors := []
    mMaxHistoryEntries := 100
    mHistoryIndex := -1
    m_totalNumHistoryItems := 0
    extState := 0
    callbackLog := [] }

/-- Diagnostic text for a command name not present in the registry. -/
def UnknownCommandMsg (name : String) : String := "UnknownCommandError: " ++ name

/-- Diagnostic text for a command whose own execute or undo operation failed. -/
def ExecErrorMsg (name : String) : String := "ExecutionError: " ++ name

/-- Diagnostic text for undoing with the cursor before the first entry. -/
def NothingToUndoMsg : String := "NothingToUndoError"

/-- Diagnostic text for redoing with the cursor already at the tail. -/
def NothingToRedoMsg : String := "NothingToRedoError"

/-- Record the dispatch of one callback notification (spec §4.4). -/
def logCallback (m : CommandManager) (event : String) : CommandManager :=
  { m with callbackLog := m.callbackLog ++ [event] }

/-- Embedded from the source (CommandManager.h line 265-266):
`AddError` appends the error line to `mErrors` via `push_back`. -/
def AddError (m : CommandManager) (errorLine : String) : CommandManager :=
  { m with mErrors := m.mErrors ++ [errorLine] }

/-- Modelled from the spec: `showErrorReport` (§4.4) — if the error buffer
is non-empty, dispatches its concatenated contents to the callbacks'
error-handling hook and returns true, otherwise returns false; the
buffer is cleared after dispatch.  `ShowErrorReport`'s body is not in
the slice. -/
def ShowErrorReport (m : CommandManager) : CommandManager × Bool :=
  if m.mErrors.isEmpty then (m, false)
  else ({ m with
          callbackLog := m.callbackLog ++ ["errorReport: " ++ String.intercalate "; " m.mErrors]
          mErrors := [] }, true)

/-- Lowercase a string character by character (the case-folding used for
case-insensitive command names). -/
def lowerString (s : String) : String :=
  ⟨s.data.map Char.toLower⟩

/-- Modelled from the spec: `find(name)` of the registry (§4.1) performs a
case-insensitive lookup and returns a not-found sentinel when absent.
`FindCommand`'s body is not in the slice. -/
def FindCommand (m : CommandManager) (commandName : String) : Option Command :=
  m.mRegisteredCommands.find? (fun c => lowerString c.name == lowerString commandName)

/-- Modelled from the spec: `register(command)` (§4.1) fails if a command
with the same case-insensitive name already exists, otherwise appends in
registration order.  `RegisterCommand`'s body is not in the slice. -/
def RegisterCommand (m : CommandManager) (command : Command) : CommandManager × Bool :=
  match FindCommand m command.name with
  | some _ => (m, false)
  | none => ({ m with mRegisteredCommands := m.mRegisteredCommands ++ [command] }, true)

/-- Split a character list into space-separated words, accumulating the
current word in reverse. -/
def wordsAux : List Char → List Char → List String
  | [], acc => if acc.isEmpty then [] else [⟨acc.reverse⟩]
  | ch :: rest, acc =>
    if ch = ' ' then
      if acc.isEmpty then wordsAux rest [] else (⟨acc.reverse⟩ : String) :: wordsAux rest []
    else wordsAux rest (ch :: acc)

/-- Modelled from the spec: the external command line parser (§6.1) turns
`commandName arg1 arg2 ...` into a command name plus a structured
argument list, failing on a malformed (here: empty) invocation. -/
def parseCommand (text : String) : Option (String × CommandLine) :=
  match wordsAux text.data [] with
  | [] => none
  | name :: args => some (name, args)

/-- Modelled from the spec: pushing a history entry (§3 History
invariants) — entries above the cursor are discarded (the redo branch is
truncated), the new entry is appended with a fresh monotonically
increasing `historyItemNr`, and oldest entries are evicted first until
the configured bound holds; the cursor ends at the tail.
`PushCommandHistory`'s body is not in the slice. -/
def PushCommandHistory (m : CommandManager) (d : HistoryEntryData) : CommandManager :=
  let kept := m.mCommandHistory.take (m.mHistoryIndex + 1).toNat
  let nr := m.m_totalNumHistoryItems + 1
  let hist := kept ++ [⟨d, nr⟩]
  let keepLen := min hist.length m.mMaxHistoryEntries
  { m with
    mCommandHistory := hist.drop (hist.length - keepLen)
    mHistoryIndex := (keepLen : Int) - 1
    m_totalNumHistoryItems := nr }

/-- Modelled from the spec: popping the oldest history item
(CommandManager.h line 308-311; spec §3: oldest entries are evicted
first and eviction decrements the cursor accordingly). -/
def PopCommandHistory (m : CommandManager) : CommandManager :=
  match m.mCommandHistory with
  | [] => m
  | _ :: rest =>
    { m with mCommandHistory := rest, mHistoryIndex := max (m.mHistoryIndex - 1) (-1) }

/-- Modelled from the spec: `setMaxHistoryItems(n)` (§4.2) shrinks the
bounded history immediately if the current size exceeds `n`, evicting
oldest first. -/
def SetMaxHistoryItems (m : CommandManager) (maxItems : Nat) : CommandManager :=
  let dropN := m.mCommandHistory.length - min m.mCommandHistory.length maxItems
  { m with
    mMaxHistoryEntries := maxItems
    mCommandHistory := m.mCommandHistory.drop dropN
    mHistoryIndex := max (m.mHistoryIndex - dropN) (-1) }

/-- Modelled from the spec: `ClearHistory` (CommandManager.h line 216)
empties the history and resets the cursor to the before-first sentinel. -/
def ClearHistory (m : CommandManager) : CommandManager :=
  { m with mCommandHistory := [], mHistoryIndex := -1 }

/-- Run the undo operations of a list of resolved member invocations in
the list's order, threading the external state; fails if any member's
undo fails. -/
def undoSeq : List (Command × CommandLine) → ExtState → Option ExtState
  | [], s => some s
  | (c, p) :: rest, s => (c.undo p s).bind (undoSeq rest)

/-- Run the execute operations of a list of resolved member invocations
in the list's order, threading the external state; fails if any member's
execute fails. -/
def execSeq : List (Command × CommandLine) → ExtState → Option ExtState
  | [], s => some s
  | (c, p) :: rest, s => (c.exec p s).bind (execSeq rest)

/-- Undo a stored history entry (spec §4.2): a single command runs its
undo operation; a group undoes its member commands in strict reverse
order of their forward execution (§4.3). -/
def entryUndo : HistoryEntryData → ExtState → Option ExtState
  | .single c p, s => c.undo p s
  | .group l, s => undoSeq l.reverse s

/-- Redo a stored history entry (spec §4.2): a single command re-executes;
a group re-executes its member commands in original order. -/
def entryRedo : HistoryEntryData → ExtState → Option ExtState
  | .single c p, s => c.exec p s
  | .group l, s => execSeq l s

/-- Display name of a history entry's payload, used in callback events. -/
def entryName : HistoryEntryData → String
  | .single c _ => c.name
  | .group _ => "group"

/-- Modelled from the spec: `undo()` (§4.2) — if the cursor is before the
first entry, fails with `NothingToUndoError` leaving the state
unchanged; otherwise dispatches pre-undo callbacks, runs the stored
entry's undo operation, dispatches post-undo callbacks and decrements
the cursor.  `Undo`'s body (CommandManager.h line 114) is not in the
slice. -/
def Undo (m : CommandManager) : CommandManager × Bool × String :=
  match (if 0 ≤ m.mHistoryIndex then m.mCommandHistory[m.mHistoryIndex.toNat]? else none) with
  | none => (m, false, NothingToUndoMsg)
  | some e =>
    let m1 := logCallback m ("preUndo " ++ entryName e.data)
    match entryUndo e.data m.extState with
    | some s =>
      (logCallback { m1 with extState := s, mHistoryIndex := m.mHistoryIndex - 1 }
        ("postUndo " ++ entryName e.data), true, "OK")
    | none =>
      (logCallback m1 ("postUndo " ++ entryName e.data), false, ExecErrorMsg (entryName e.data))

/-- Modelled from the spec: `redo()` (§4.2) — symmetric to undo: fails
with `NothingToRedoError` when already at the tail, otherwise
re-executes the entry above the cursor and increments the cursor.
`Redo`'s body (CommandManager.h line 121) is not in the slice. -/
def Redo (m : CommandManager) : CommandManager × Bool × String :=
  match (if -1 ≤ m.mHistoryIndex then m.mCommandHistory[(m.mHistoryIndex + 1).toNat]? else none) with
  | none => (m, false, NothingToRedoMsg)
  | some e =>
    let m1 := logCallback m ("preExec " ++ entryName e.data)
    match entryRedo e.data m.extState with
    | some s =>
      (logCallback { m1 with extState := s, mHistoryIndex := m.mHistoryIndex + 1 }
        ("postExec " ++ entryName e.data), true, "OK")
    | none =>
      (logCallback m1 ("postExec " ++ entryName e.data), false, ExecErrorMsg (entryName e.data))

/-- Clear the error buffer when requested (spec §4.5: cleared at entry
unless `clearErrors` is false). -/
def clearedM (m : CommandManager) (clearErrors : Bool) : CommandManager :=
  if clearErrors then { m with mErrors := [] } else m

/-- Modelled from the spec: `executeCommand` (§4.2) — clears the error
buffer unless suppressed, parses the text, resolves via the registry
(failing with `UnknownCommandError` if absent, which accumulates in the
error buffer per §8's scenario), dispatches pre/post-execute callbacks
around the command's execute operation, pushes a history entry on
success when requested and the command is undoable, and finally runs the
automatic error report unless `handleErrors` is false (§4.5).
`ExecuteCommand`'s body (CommandManager.h lines 90-91) is not in the
slice. -/
def ExecuteCommand (m0 : CommandManager) (command : String)
    (addToHistory clearErrors handleErrors : Bool) : CommandManager × Bool × String :=
  let m := clearedM m0 clearErrors
  match parseCommand command with
  | none =>
    let m2 := if handleErrors then (ShowErrorReport m).1 else m
    (m2, false, "ParseError")
  | some (name, params) =>
    match FindCommand m name with
    | none =>
      let m1 := AddError m (UnknownCommandMsg name)
      let m2 := if handleErrors then (ShowErrorReport m1).1 else m1
      (m2, false, UnknownCommandMsg name)
    | some cmd =>
      let m1 := logCallback m ("preExec " ++ cmd.name)
      match cmd.exec params m.extState with
      | some s =>
        let m2 := logCallback { m1 with extState := s } ("postExec " ++ cmd.name)
        let m3 := if addToHistory && cmd.isUndoable
                  then PushCommandHistory m2 (.single cmd params) else m2
        let m4 := if handleErrors then (ShowErrorReport m3).1 else m3
        (m4, true, "OK")
      | none =>
        let m2 := logCallback m1 ("postExec " ++ cmd.name)
        let m3 := AddError m2 (ExecErrorMsg cmd.name)
        let m4 := if handleErrors then (ShowErrorReport m3).1 else m3
        (m4, false, ExecErrorMsg cmd.name)

/-- Execute one member invocation of a command group: resolve the name
(an unknown name fails with `UnknownCommandError`), dispatch pre/post
callbacks around the execute operation, and report the resolved command
for the eventual group history entry. -/
def execMember (m : CommandManager) (nm : String) (params : CommandLine) :
    CommandManager × Bool × Option (Command × CommandLine) :=
  match FindCommand m nm with
  | none => (AddError m (UnknownCommandMsg nm), false, none)
  | some cmd =>
    let m1 := logCallback m ("preExec " ++ cmd.name)
    match cmd.exec params m.extState with
    | some s =>
      (logCallback { m1 with extState := s } ("postExec " ++ cmd.name), true, some (cmd, params))
    | none =>
      (AddError (logCallback m1 ("postExec " ++ cmd.name)) (ExecErrorMsg cmd.name), false,
        some (cmd, params))

/-- Modelled from the spec: group member iteration (§4.3) — executes the
members in order, stopping early only when the group is configured to
abort on failure; commands already executed are not rolled back.
Returns the threaded manager, the per-member results of the members that
were attempted, and the resolved members for the history entry. -/
def execMembers : List (String × CommandLine) → Bool → CommandManager →
    CommandManager × List Bool × List (Command × CommandLine)
  | [], _, m => (m, [], [])
  | (nm, ps) :: rest, abortOnFailure, m =>
    let r := execMember m nm ps
    let resolvedHere := match r.2.2 with
      | some cp => [cp]
      | none => []
    if !r.2.1 && abortOnFailure then
      (r.1, [r.2.1], resolvedHere)
    else
      let rr := execMembers rest abortOnFailure r.1
      (rr.1, r.2.1 :: rr.2.1, resolvedHere ++ rr.2.2)

/-- Modelled from the spec: `executeCommandGroup` (§4.2, §4.3) — executes
every member in order (subject to the abort-on-failure policy), reports
aggregate success as the logical AND of the member results, records the
whole group as a single history entry only on full success when
requested, and runs the automatic error report unless suppressed.
`ExecuteCommandGroup`'s body (CommandManager.h line 105) is not in the
slice. -/
def ExecuteCommandGroup (m0 : CommandManager) (g : CommandGroup)
    (addToHistory clearErrors handleErrors : Bool) : CommandManager × Bool × String :=
  let m := clearedM m0 clearErrors
  let r := execMembers g.commands g.abortOnFailure m
  let ok := r.2.1.all id
  let m2 := if ok && addToHistory then PushCommandHistory r.1 (.group r.2.2) else r.1
  let m3 := if handleErrors then (ShowErrorReport m2).1 else m2
  (m3, ok, if ok then "OK" else "GroupError")

/-- One public operation of the manager, for stating reachability
invariants over arbitrary operation sequences. -/
inductive Op where
  | exec (text : String) (addToHistory clearErrors handleErrors : Bool)
  | execGroup (g : CommandGroup) (addToHistory clearErrors handleErrors : Bool)
  | undo
  | redo
  | register (c : Command)
  | setMax (n : Nat)
  | addErr (s : String)
  | report
  | clearHist
  | pop

/-- Apply one operation to the manager state. -/
def applyOp (m : CommandManager) : Op → CommandManager
  | .exec t a c h => (ExecuteCommand m t a c h).1
  | .execGroup g a c h => (ExecuteCommandGroup m g a c h).1
  | .undo => (Undo m).1
  | .redo => (Redo m).1
  | .register c => (RegisterCommand m c).1
  | .setMax n => SetMaxHistoryItems m n
  | .addErr s => AddError m s
  | .report => (ShowErrorReport m).1
  | .clearHist => ClearHistory m
  | .pop => PopCommandHistory m

/-- Apply a sequence of operations from left to right. -/
def applyOps (ops : List Op) (m : CommandManager) : CommandManager :=
  ops.foldl applyOp m

/-- The manager state reached by one `Undo` call. -/
def undoStep (m : CommandManager) : CommandManager := (Undo m).1

/-- The manager state reached by one `Redo` call. -/
def redoStep (m : CommandManager) : CommandManager := (Redo m).1

/-- A concrete demo command: increments the external state, undo
decrements it. -/
def incCommand : Command :=
  { name := "inc"
    isUndoable := true
    exec := fun _ s => some (s + 1)
    undo := fun _ s => some (s - 1) }

/-- A concrete demo command whose name differs from `incCommand`'s only
in letter case. -/
def incCommandUpper : Command :=
  { name := "INC"
    isUndoable := true
    exec := fun _ s => some (s + 10)
    undo := fun _ s => some (s - 10) }

/-- Concrete history entries used by witnesses. -/
def entryA : CommandHistoryEntry := ⟨.single incCommand [], 1⟩

/-- Concrete history entry used by witnesses as a stale redo branch. -/
def entryB : CommandHistoryEntry := ⟨.single incCommand [], 2⟩

/-- Concrete manager whose cursor sits below a one-entry redo branch. -/
def c2Manager : CommandManager :=
  { initialManager with
    mCommandHistory := [entryA, entryB]
    mHistoryIndex := 0
    m_totalNumHistoryItems := 2 }

/-- Demo command adding two, undo subtracts two. -/
def addTwoCommand : Command :=
  { name := "addTwo"
    isUndoable := true
    exec := fun _ s => some (s + 2)
    undo := fun _ s => some (s - 2) }

/-- Demo command adding four, undo subtracts four. -/
def addFourCommand : Command :=
  { name := "addFour"
    isUndoable := true
    exec := fun _ s => some (s + 4)
    undo := fun _ s => some (s - 4) }

/-- The members of the three-command demo group, in execution order. -/
def demoGroupMembers : List (Command × CommandLine) :=
  [(incCommand, []), (addTwoCommand, []), (addFourCommand, [])]

/-- Concrete manager whose single history entry is a fully executed
three-command group (external state 0 + 1 + 2 + 4 = 7). -/
def c5Manager : CommandManager :=
  { initialManager with
    mCommandHistory := [⟨.group demoGroupMembers, 1⟩]
    mHistoryIndex := 0
    m_totalNumHistoryItems := 1
    extState := 7 }

/-- The history-relevant core of the manager state: the stored history,
the cursor and the observable external state (the components that undo
and redo read and write). -/
abbrev HistCore := List CommandHistoryEntry × Int × ExtState

/-- Project the manager onto its history core. -/
def coreOf (m : CommandManager) : HistCore :=
  (m.mCommandHistory, m.mHistoryIndex, m.extState)

/-- The action of `Undo` on the history core. -/
def undoCore (c : HistCore) : HistCore :=
  match (if 0 ≤ c.2.1 then c.1[c.2.1.toNat]? else none) with
  | none => c
  | some e =>
    match entryUndo e.data c.2.2 with
    | some s => (c.1, c.2.1 - 1, s)
    | none => c

/-- The action of `Redo` on the history core. -/
def redoCore (c : HistCore) : HistCore :=
  match (if -1 ≤ c.2.1 then c.1[(c.2.1 + 1).toNat]? else none) with
  | none => c
  | some e =>
    match entryRedo e.data c.2.2 with
    | some s => (c.1, c.2.1 + 1, s)
    | none => c

/-- A history entry is correctly undoable: from every external state its
undo operation succeeds, and re-executing from the undone state restores
the state the undo started from. -/
def EntryRoundtrips (e : CommandHistoryEntry) : Prop :=
  ∀ s : ExtState, ∃ s' : ExtState,
    entryUndo e.data s = some s' ∧ entryRedo e.data s' = some s

/-- Concrete manager for the C1 witness: one executed `inc` command in
the history, cursor on it, external state 5. -/
def c1Manager : CommandManager :=
  { initialManager with
    mCommandHistory := [⟨.single incCommand [], 1⟩]
    mHistoryIndex := 0
    m_totalNumHistoryItems := 1
    extState := 5 }

/-- History bookkeeping invariant (spec §3, §8): the stored history never
exceeds the configured bound, the `historyItemNr` values of the stored
entries are strictly increasing, and every stored number is at most the
global counter (so a fresh push can never reuse a number). -/
def HistoryInv (m : CommandManager) : Prop :=
  m.mCommandHistory.length ≤ m.mMaxHistoryEntries ∧
  List.Chain' (· < ·) (m.mCommandHistory.map (fun e => e.m_historyItemNr)) ∧
  ∀ e ∈ m.mCommandHistory, e.m_historyItemNr ≤ m.m_totalNumHistoryItems

/-- Cursor invariant: the history cursor is at least the before-first
sentinel -1 and strictly below the number of stored entries. -/
def CursorInv (m : CommandManager) : Prop :=
  -1 ≤ m.mHistoryIndex ∧ m.mHistoryIndex < (m.mCommandHistory.length : Int)

/-- Concrete manager whose history is full (bound 2) with the cursor at
the tail, used to witness FIFO eviction. -/
def c3FullManager : CommandManager :=
  { initialManager with
    mMaxHistoryEntries := 2
    mCommandHistory := [entryA, entryB]
    mHistoryIndex := 1
    m_totalNumHistoryItems := 2 }

/-- Concrete demo group: one registered-style member name and one bogus
name, executing without the abort-on-failure policy. -/
def demoGroup : CommandGroup :=
  { commands := [("inc", []), ("bogus", [])]
    abortOnFailure := false }

/-- Case-insensitive lookup depends only on the lowercased name. -/
theorem findCommand_congr (m : CommandManager) (n₁ n₂ : String)
    (h : lowerString n₁ = lowerString n₂) : FindCommand m n₁ = FindCommand m n₂ := by
  unfold FindCommand
  have : (fun c : Command => lowerString c.name == lowerString n₁)
       = (fun c : Command => lowerString c.name == lowerString n₂) := by
    funext c; rw [h]
  rw [this]

/-- C10: for every manager state and every error string, `AddError`
appends exactly that one string to the end of the internal error list
and modifies nothing else: it dispatches no callbacks and leaves the
history, the cursor, the registry, the history bound, the global item
counter and the external state unchanged. -/
theorem c10_addError_appends_exactly_one (m : CommandManager) (s : String) :
    (AddError m s).mErrors = m.mErrors ++ [s] ∧
    (AddError m s).callbackLog = m.callbackLog ∧
    (AddError m s).mCommandHistory = m.mCommandHistory ∧
    (AddError m s).mHistoryIndex = m.mHistoryIndex ∧
    (AddError m s).mRegisteredCommands = m.mRegisteredCommands ∧
    (AddError m s).mMaxHistoryEntries = m.mMaxHistoryEntries ∧
    (AddError m s).m_totalNumHistoryItems = m.m_totalNumHistoryItems ∧
    (AddError m s).extState = m.extState :=
  ⟨rfl, rfl, rfl, rfl, rfl, rfl, rfl, rfl⟩

/-- C6: `Undo` on an empty history, or with the cursor before the first
entry, fails with `NothingToUndoError` and leaves the entire manager
state unchanged. -/
theorem c6_undo_nothing_to_undo (m : CommandManager)
    (h : m.mCommandHistory = [] ∨ m.mHistoryIndex < 0) :
    Undo m = (m, false, NothingToUndoMsg) := by
  unfold Undo
  rcases h with h | h
  · rcases le_or_lt 0 m.mHistoryIndex with h0 | h0
    · simp [h, h0]
    · simp [not_le.mpr h0]
  · simp [not_le.mpr h]

/-- Witness for C6 at the freshly constructed manager. -/
theorem c6_witness :
    (initialManager.mCommandHistory = [] ∨ initialManager.mHistoryIndex < 0) ∧
    Undo initialManager = (initialManager, false, NothingToUndoMsg) :=
  ⟨Or.inl rfl, c6_undo_nothing_to_undo initialManager (Or.inl rfl)⟩

/-- C7: registration succeeds exactly when no command with the same
case-insensitive name is present, `FindCommand` lookup is
case-insensitive, and after registering a command, registering a second
command whose name differs only in letter case fails (the
`DuplicateCommandNameError` outcome, modelled as the `false` result). -/
theorem c7_register_case_insensitive :
    (∀ m c, (RegisterCommand m c).2 = true ↔ FindCommand m c.name = none) ∧
    (∀ m n₁ n₂, lowerString n₁ = lowerString n₂ → FindCommand m n₁ = FindCommand m n₂) ∧
    (∀ m c₁ c₂, lowerString c₁.name = lowerString c₂.name →
      (RegisterCommand (RegisterCommand m c₁).1 c₂).2 = false) := by
  refine ⟨?_, ?_, ?_⟩
  · intro m c
    unfold RegisterCommand
    cases h : FindCommand m c.name <;> simp [h]
  · exact findCommand_congr
  · intro m c₁ c₂ h
    have hfind : ∀ mm : CommandManager, FindCommand mm c₂.name = FindCommand mm c₁.name :=
      fun mm => findCommand_congr mm c₂.name c₁.name (by rw [h])
    unfold RegisterCommand
    cases h₁ : FindCommand m c₁.name with
    | some c => rw [hfind m, h₁]
    | none =>
      simp only
      have : FindCommand { m with mRegisteredCommands := m.mRegisteredCommands ++ [c₁] } c₂.name
           = some c₁ := by
        rw [hfind]
        unfold FindCommand at h₁ ⊢
        simp only [List.find?_append, h₁, Option.none_or]
        simp [List.find?]
      rw [this]

/-- C2: pushing a history entry while the cursor is not at the tail
removes every entry above the cursor (the redo branch) before appending:
the new entry is the tail of the resulting history, everything before it
comes from the entries at or below the old cursor, and the cursor ends
at the tail. -/
theorem c2_push_truncates_redo_branch (m : CommandManager) (d : HistoryEntryData)
    (hcur : m.mHistoryIndex + 1 < (m.mCommandHistory.length : Int))
    (hmax : 0 < m.mMaxHistoryEntries) :
    (PushCommandHistory m d).mCommandHistory.getLast? =
      some ⟨d, m.m_totalNumHistoryItems + 1⟩ ∧
    List.IsSuffix (PushCommandHistory m d).mCommandHistory.dropLast
      (m.mCommandHistory.take (m.mHistoryIndex + 1).toNat) ∧
    (PushCommandHistory m d).mHistoryIndex =
      ((PushCommandHistory m d).mCommandHistory.length : Int) - 1 := by
  simp only [PushCommandHistory]
  have hdk : (m.mCommandHistory.take (m.mHistoryIndex + 1).toNat ++
        [(⟨d, m.m_totalNumHistoryItems + 1⟩ : CommandHistoryEntry)]).length -
      min (m.mCommandHistory.take (m.mHistoryIndex + 1).toNat ++
        [(⟨d, m.m_totalNumHistoryItems + 1⟩ : CommandHistoryEntry)]).length m.mMaxHistoryEntries
      ≤ (m.mCommandHistory.take (m.mHistoryIndex + 1).toNat).length := by
    simp only [List.length_append, List.length_cons, List.length_nil]
    omega
  rw [List.drop_append_of_le_length hdk]
  refine ⟨List.getLast?_concat _, ?_, ?_⟩
  · rw [List.dropLast_concat]
    exact List.drop_suffix _ _
  · simp only [List.length_append, List.length_cons, List.length_nil, List.length_drop]
    omega


/-- Witness for C2 at a manager with a one-entry redo branch. -/
theorem c2_witness :
    (c2Manager.mHistoryIndex + 1 < (c2Manager.mCommandHistory.length : Int)) ∧
    (0 < c2Manager.mMaxHistoryEntries) ∧
    ((PushCommandHistory c2Manager (.single incCommand [])).mCommandHistory.getLast? =
      some ⟨.single incCommand [], c2Manager.m_totalNumHistoryItems + 1⟩ ∧
    List.IsSuffix (PushCommandHistory c2Manager (.single incCommand [])).mCommandHistory.dropLast
      (c2Manager.mCommandHistory.take (c2Manager.mHistoryIndex + 1).toNat) ∧
    (PushCommandHistory c2Manager (.single incCommand [])).mHistoryIndex =
      ((PushCommandHistory c2Manager (.single incCommand [])).mCommandHistory.length : Int) - 1) :=
  ⟨by decide, by decide,
   c2_push_truncates_redo_branch c2Manager (.single incCommand []) (by decide) (by decide)⟩

/-- C5: a command group recorded as one history entry is undone by a
single `Undo` call as one atomic step — the one call reverts all member
commands and decrements the cursor once — and the members are undone in
strict reverse order of their forward execution (the last executed
member's undo runs first). -/
theorem c5_group_atomic_undo :
    (∀ (m : CommandManager) (l : List (Command × CommandLine)) (e : CommandHistoryEntry)
        (s' : ExtState),
      0 ≤ m.mHistoryIndex →
      m.mCommandHistory[m.mHistoryIndex.toNat]? = some e →
      e.data = .group l →
      undoSeq l.reverse m.extState = some s' →
      (Undo m).2.1 = true ∧
      (Undo m).1.extState = s' ∧
      (Undo m).1.mHistoryIndex = m.mHistoryIndex - 1 ∧
      (Undo m).1.mCommandHistory = m.mCommandHistory) ∧
    (∀ (l : List (Command × CommandLine)) (c : Command) (p : CommandLine) (s : ExtState),
      entryUndo (.group (l ++ [(c, p)])) s =
        (c.undo p s).bind (fun s₂ => entryUndo (.group l) s₂)) := by
  constructor
  · intro m l e s' hidx hget hdata hundo
    unfold Undo
    rw [if_pos hidx, hget]
    simp [hdata, entryUndo, hundo, logCallback]
  · intro l c p s
    simp [entryUndo, List.reverse_append, undoSeq]


/-- Witness for C5: one `Undo` call on the recorded three-command group
reverts all three members (7 - 4 - 2 - 1 = 0) and moves the cursor back
one step. -/
theorem c5_witness :
    (0 ≤ c5Manager.mHistoryIndex) ∧
    (c5Manager.mCommandHistory[c5Manager.mHistoryIndex.toNat]? =
      some ⟨.group demoGroupMembers, 1⟩) ∧
    (undoSeq demoGroupMembers.reverse c5Manager.extState = some 0) ∧
    ((Undo c5Manager).2.1 = true ∧
     (Undo c5Manager).1.extState = 0 ∧
     (Undo c5Manager).1.mHistoryIndex = c5Manager.mHistoryIndex - 1 ∧
     (Undo c5Manager).1.mCommandHistory = c5Manager.mCommandHistory) :=
  ⟨by decide, rfl, rfl,
   c5_group_atomic_undo.1 c5Manager demoGroupMembers ⟨.group demoGroupMembers, 1⟩ 0
     (by decide) rfl rfl rfl⟩

/-- Witness for C7: a fresh registration of `"Create"` succeeds, lookup
of the two case-variants agrees, and registering `"CREATE"` after
`"Create"` fails. -/
theorem c7_witness :
    ((RegisterCommand initialManager incCommand).2 = true ↔
      FindCommand initialManager incCommand.name = none) ∧
    (lowerString incCommand.name = lowerString incCommandUpper.name →
      FindCommand initialManager incCommand.name = FindCommand initialManager incCommandUpper.name) ∧
    (RegisterCommand (RegisterCommand initialManager incCommand).1 incCommandUpper).2 = false :=
  ⟨c7_register_case_insensitive.1 initialManager incCommand,
   c7_register_case_insensitive.2.1 initialManager incCommand.name incCommandUpper.name,
   c7_register_case_insensitive.2.2 initialManager incCommand incCommandUpper (by decide)⟩

/-- The error-clearing step leaves every field but `mErrors` unchanged. -/
theorem clearedM_frame (m : CommandManager) (b : Bool) :
    (clearedM m b).mCommandHistory = m.mCommandHistory ∧
    (clearedM m b).mRegisteredCommands = m.mRegisteredCommands ∧
    (clearedM m b).mHistoryIndex = m.mHistoryIndex ∧
    (clearedM m b).mMaxHistoryEntries = m.mMaxHistoryEntries ∧
    (clearedM m b).m_totalNumHistoryItems = m.m_totalNumHistoryItems ∧
    (clearedM m b).extState = m.extState := by
  unfold clearedM
  cases b <;> exact ⟨rfl, rfl, rfl, rfl, rfl, rfl⟩

/-- Clearing the error buffer neither changes the registry nor the
outcome of lookups. -/
theorem clearedM_findCommand (m : CommandManager) (b : Bool) (n : String) :
    FindCommand (clearedM m b) n = FindCommand m n := by
  unfold clearedM
  cases b <;> rfl

/-- Clearing the error buffer does not change the external state. -/
theorem clearedM_extState (m : CommandManager) (b : Bool) :
    (clearedM m b).extState = m.extState := by
  unfold clearedM
  cases b <;> rfl

/-- Dispatching the error report touches only the error buffer and the
callback log. -/
theorem showErrorReport_frame (m : CommandManager) :
    (ShowErrorReport m).1.mCommandHistory = m.mCommandHistory ∧
    (ShowErrorReport m).1.mRegisteredCommands = m.mRegisteredCommands ∧
    (ShowErrorReport m).1.mHistoryIndex = m.mHistoryIndex ∧
    (ShowErrorReport m).1.mMaxHistoryEntries = m.mMaxHistoryEntries ∧
    (ShowErrorReport m).1.m_totalNumHistoryItems = m.m_totalNumHistoryItems ∧
    (ShowErrorReport m).1.extState = m.extState := by
  unfold ShowErrorReport
  split <;> exact ⟨rfl, rfl, rfl, rfl, rfl, rfl⟩

/-- Branch equation: an unparsable invocation fails with a parse error. -/
theorem executeCommand_parse_none (m : CommandManager) (t : String) (a c hE : Bool)
    (hp : parseCommand t = none) :
    ExecuteCommand m t a c hE =
      (if hE then (ShowErrorReport (clearedM m c)).1 else clearedM m c, false, "ParseError") := by
  unfold ExecuteCommand
  simp only [hp]

/-- Branch equation: an unregistered command name fails with
`UnknownCommandError` and accumulates it in the error buffer. -/
theorem executeCommand_unknown (m : CommandManager) (t name : String) (params : CommandLine)
    (a c hE : Bool)
    (hp : parseCommand t = some (name, params))
    (hf : FindCommand m name = none) :
    ExecuteCommand m t a c hE =
      (if hE then (ShowErrorReport (AddError (clearedM m c) (UnknownCommandMsg name))).1
       else AddError (clearedM m c) (UnknownCommandMsg name), false, UnknownCommandMsg name) := by
  unfold ExecuteCommand
  simp only [hp, clearedM_findCommand, hf]

/-- Branch equation: a command whose own execute operation fails reports
an execution error and accumulates it in the error buffer. -/
theorem executeCommand_exec_failed (m : CommandManager) (t name : String)
    (params : CommandLine) (cmd : Command) (a c hE : Bool)
    (hp : parseCommand t = some (name, params))
    (hf : FindCommand m name = some cmd)
    (hx : cmd.exec params m.extState = none) :
    ExecuteCommand m t a c hE =
      (if hE
       then (ShowErrorReport (AddError
         (logCallback (logCallback (clearedM m c) ("preExec " ++ cmd.name))
           ("postExec " ++ cmd.name)) (ExecErrorMsg cmd.name))).1
       else AddError
         (logCallback (logCallback (clearedM m c) ("preExec " ++ cmd.name))
           ("postExec " ++ cmd.name)) (ExecErrorMsg cmd.name),
       false, ExecErrorMsg cmd.name) := by
  unfold ExecuteCommand
  simp only [hp, clearedM_findCommand, hf, clearedM_extState, hx]

/-- Branch equation: a successful execution reports success. -/
theorem executeCommand_success_flag (m : CommandManager) (t name : String)
    (params : CommandLine) (cmd : Command) (s : ExtState) (a c hE : Bool)
    (hp : parseCommand t = some (name, params))
    (hf : FindCommand m name = some cmd)
    (hx : cmd.exec params m.extState = some s) :
    (ExecuteCommand m t a c hE).2.1 = true := by
  unfold ExecuteCommand
  simp only [hp, clearedM_findCommand, hf, clearedM_extState, hx]

/-- Executing one group member touches only the external state, the
error buffer and the callback log. -/
theorem execMember_frame (m : CommandManager) (nm : String) (ps : CommandLine) :
    (execMember m nm ps).1.mCommandHistory = m.mCommandHistory ∧
    (execMember m nm ps).1.mRegisteredCommands = m.mRegisteredCommands ∧
    (execMember m nm ps).1.mHistoryIndex = m.mHistoryIndex ∧
    (execMember m nm ps).1.mMaxHistoryEntries = m.mMaxHistoryEntries ∧
    (execMember m nm ps).1.m_totalNumHistoryItems = m.m_totalNumHistoryItems := by
  unfold execMember
  cases FindCommand m nm with
  | none => exact ⟨rfl, rfl, rfl, rfl, rfl⟩
  | some cmd =>
    simp only
    cases cmd.exec ps m.extState <;> exact ⟨rfl, rfl, rfl, rfl, rfl⟩

/-- Executing the members of a group touches only the external state,
the error buffer and the callback log. -/
theorem execMembers_frame (l : List (String × CommandLine)) (ab : Bool) (m : CommandManager) :
    (execMembers l ab m).1.mCommandHistory = m.mCommandHistory ∧
    (execMembers l ab m).1.mRegisteredCommands = m.mRegisteredCommands ∧
    (execMembers l ab m).1.mHistoryIndex = m.mHistoryIndex ∧
    (execMembers l ab m).1.mMaxHistoryEntries = m.mMaxHistoryEntries ∧
    (execMembers l ab m).1.m_totalNumHistoryItems = m.m_totalNumHistoryItems := by
  induction l generalizing m with
  | nil => exact ⟨rfl, rfl, rfl, rfl, rfl⟩
  | cons hd tl ih =>
    obtain ⟨nm, ps⟩ := hd
    unfold execMembers
    simp only
    split
    · exact execMember_frame m nm ps
    · obtain ⟨e1, e2, e3, e4, e5⟩ := execMember_frame m nm ps
      obtain ⟨i1, i2, i3, i4, i5⟩ := ih (execMember m nm ps).1
      exact ⟨i1.trans e1, i2.trans e2, i3.trans e3, i4.trans e4, i5.trans e5⟩

/-- Unfolding equation for `ExecuteCommandGroup`. -/
theorem executeCommandGroup_eq (m : CommandManager) (g : CommandGroup) (a c hE : Bool) :
    ExecuteCommandGroup m g a c hE =
      (let r := execMembers g.commands g.abortOnFailure (clearedM m c)
       let ok := r.2.1.all id
       let m2 := if ok && a then PushCommandHistory r.1 (.group r.2.2) else r.1
       (if hE then (ShowErrorReport m2).1 else m2, ok,
        if ok then "OK" else "GroupError")) := rfl

/-- Branch equation: a group with any failed member reports failure and
pushes nothing to the history. -/
theorem executeCommandGroup_failed (m : CommandManager) (g : CommandGroup) (a c hE : Bool)
    (hok : (execMembers g.commands g.abortOnFailure (clearedM m c)).2.1.all id = false) :
    ExecuteCommandGroup m g a c hE =
      (if hE then (ShowErrorReport (execMembers g.commands g.abortOnFailure (clearedM m c)).1).1
       else (execMembers g.commands g.abortOnFailure (clearedM m c)).1,
       false, "GroupError") := by
  unfold ExecuteCommandGroup
  simp only [hok, Bool.false_and, Bool.false_eq_true, if_false, ite_false]

/-- C4: a failed command or group invocation leaves the history, the
command registry and the history cursor unchanged (history is mutated
only on full success); in particular an unregistered command name fails
with `UnknownCommandError` and appends exactly one entry to the error
buffer (observed with the automatic error report suppressed, since the
report consumes the buffer). -/
theorem c4_failure_leaves_state_unchanged :
    (∀ (m : CommandManager) (t : String) (a c hE : Bool),
      (ExecuteCommand m t a c hE).2.1 = false →
      (ExecuteCommand m t a c hE).1.mCommandHistory = m.mCommandHistory ∧
      (ExecuteCommand m t a c hE).1.mRegisteredCommands = m.mRegisteredCommands ∧
      (ExecuteCommand m t a c hE).1.mHistoryIndex = m.mHistoryIndex) ∧
    (∀ (m : CommandManager) (g : CommandGroup) (a c hE : Bool),
      (ExecuteCommandGroup m g a c hE).2.1 = false →
      (ExecuteCommandGroup m g a c hE).1.mCommandHistory = m.mCommandHistory ∧
      (ExecuteCommandGroup m g a c hE).1.mRegisteredCommands = m.mRegisteredCommands ∧
      (ExecuteCommandGroup m g a c hE).1.mHistoryIndex = m.mHistoryIndex) ∧
    (∀ (m : CommandManager) (t name : String) (params : CommandLine),
      parseCommand t = some (name, params) →
      FindCommand m name = none →
      (ExecuteCommand m t true true false).2.1 = false ∧
      (ExecuteCommand m t true true false).2.2 = UnknownCommandMsg name ∧
      (ExecuteCommand m t true true false).1.mErrors = [UnknownCommandMsg name]) := by
  refine ⟨?_, ?_, ?_⟩
  · intro m t a c hE hfail
    obtain ⟨f1, f2, f3, -, -, -⟩ := clearedM_frame m c
    cases hp : parseCommand t with
    | none =>
      rw [executeCommand_parse_none m t a c hE hp]
      obtain ⟨s1, s2, s3, -, -, -⟩ := showErrorReport_frame (clearedM m c)
      cases hE
      · exact ⟨f1, f2, f3⟩
      · exact ⟨s1.trans f1, s2.trans f2, s3.trans f3⟩
    | some np =>
      obtain ⟨name, params⟩ := np
      cases hf : FindCommand m name with
      | none =>
        rw [executeCommand_unknown m t name params a c hE hp hf]
        obtain ⟨s1, s2, s3, -, -, -⟩ :=
          showErrorReport_frame (AddError (clearedM m c) (UnknownCommandMsg name))
        cases hE
        · exact ⟨f1, f2, f3⟩
        · exact ⟨s1.trans f1, s2.trans f2, s3.trans f3⟩
      | some cmd =>
        cases hx : cmd.exec params m.extState with
        | some s =>
          rw [executeCommand_success_flag m t name params cmd s a c hE hp hf hx] at hfail
          simp at hfail
        | none =>
          rw [executeCommand_exec_failed m t name params cmd a c hE hp hf hx]
          obtain ⟨s1, s2, s3, -, -, -⟩ :=
            showErrorReport_frame (AddError
              (logCallback (logCallback (clearedM m c) ("preExec " ++ cmd.name))
                ("postExec " ++ cmd.name)) (ExecErrorMsg cmd.name))
          cases hE
          · exact ⟨f1, f2, f3⟩
          · exact ⟨s1.trans f1, s2.trans f2, s3.trans f3⟩
  · intro m g a c hE hfail
    obtain ⟨f1, f2, f3, -, -, -⟩ := clearedM_frame m c
    obtain ⟨e1, e2, e3, -, -⟩ :=
      execMembers_frame g.commands g.abortOnFailure (clearedM m c)
    cases hok : (execMembers g.commands g.abortOnFailure (clearedM m c)).2.1.all id with
    | true =>
      have : (ExecuteCommandGroup m g a c hE).2.1 = true := by
        rw [show (ExecuteCommandGroup m g a c hE).2.1
            = (execMembers g.commands g.abortOnFailure (clearedM m c)).2.1.all id from rfl, hok]
      rw [this] at hfail
      simp at hfail
    | false =>
      rw [executeCommandGroup_failed m g a c hE hok]
      obtain ⟨s1, s2, s3, -, -, -⟩ :=
        showErrorReport_frame (execMembers g.commands g.abortOnFailure (clearedM m c)).1
      cases hE
      · exact ⟨e1.trans f1, e2.trans f2, e3.trans f3⟩
      · exact ⟨s1.trans (e1.trans f1), s2.trans (e2.trans f2), s3.trans (e3.trans f3)⟩
  · intro m t name params hp hf
    rw [executeCommand_unknown m t name params true true false hp hf]
    exact ⟨rfl, rfl, by simp [AddError, clearedM]⟩

/-- Witness for C4: executing the unregistered command `"bogus"` on the
fresh manager fails with `UnknownCommandError`, leaves history, registry
and cursor unchanged, and puts exactly one entry in the error buffer. -/
theorem c4_witness :
    ((ExecuteCommand initialManager "bogus" true true false).2.1 = false) ∧
    (parseCommand "bogus" = some ("bogus", [])) ∧
    (FindCommand initialManager "bogus" = none) ∧
    ((ExecuteCommand initialManager "bogus" true true false).1.mCommandHistory =
      initialManager.mCommandHistory ∧
     (ExecuteCommand initialManager "bogus" true true false).1.mRegisteredCommands =
      initialManager.mRegisteredCommands ∧
     (ExecuteCommand initialManager "bogus" true true false).1.mHistoryIndex =
      initialManager.mHistoryIndex) ∧
    ((ExecuteCommand initialManager "bogus" true true false).2.2 =
      UnknownCommandMsg "bogus" ∧
     (ExecuteCommand initialManager "bogus" true true false).1.mErrors =
      [UnknownCommandMsg "bogus"]) :=
  ⟨(c4_failure_leaves_state_unchanged.2.2 initialManager "bogus" "bogus" [] rfl rfl).1,
   rfl, rfl,
   c4_failure_leaves_state_unchanged.1 initialManager "bogus" true true false
     (c4_failure_leaves_state_unchanged.2.2 initialManager "bogus" "bogus" [] rfl rfl).1,
   ⟨(c4_failure_leaves_state_unchanged.2.2 initialManager "bogus" "bogus" [] rfl rfl).2.1,
    (c4_failure_leaves_state_unchanged.2.2 initialManager "bogus" "bogus" [] rfl rfl).2.2⟩⟩

/-- A member-result list that is all-true has one result per member:
without a failure the iteration never stops early. -/
theorem execMembers_all_true_length (l : List (String × CommandLine)) (ab : Bool)
    (m : CommandManager)
    (hall : (execMembers l ab m).2.1.all id = true) :
    (execMembers l ab m).2.1.length = l.length := by
  induction l generalizing m with
  | nil => rfl
  | cons hd tl ih =>
    obtain ⟨nm, ps⟩ := hd
    unfold execMembers at hall ⊢
    simp only at hall ⊢
    by_cases hstop : (!(execMember m nm ps).2.1 && ab) = true
    · rw [if_pos hstop] at hall
      simp at hall hstop
      rw [hstop.1] at hall
      simp at hall
    · rw [if_neg hstop] at hall ⊢
      simp only [List.all_cons, Bool.and_eq_true] at hall
      simp only [List.length_cons]
      rw [ih (execMember m nm ps).1 hall.2]

/-- Without the abort-on-failure policy every member is attempted. -/
theorem execMembers_noabort_length (l : List (String × CommandLine)) (m : CommandManager) :
    (execMembers l false m).2.1.length = l.length := by
  induction l generalizing m with
  | nil => rfl
  | cons hd tl ih =>
    obtain ⟨nm, ps⟩ := hd
    unfold execMembers
    simp only [Bool.and_false, Bool.false_eq_true, if_false, List.length_cons, ite_false]
    rw [ih (execMember m nm ps).1]

/-- Pushing a history entry does not change the external state. -/
theorem pushCommandHistory_extState (m : CommandManager) (d : HistoryEntryData) :
    (PushCommandHistory m d).extState = m.extState := rfl

/-- C8: `ExecuteCommandGroup` executes the members in order and returns
true exactly when every member command executed successfully (one `true`
result per member); when the group is not configured to abort on
failure, every member is attempted (no early stop); and the manager does
not roll back: the final external state is exactly the state left behind
by the member execution, even on failure. -/
theorem c8_group_execution_semantics :
    (∀ (m : CommandManager) (g : CommandGroup) (a c hE : Bool),
      (ExecuteCommandGroup m g a c hE).2.1 = true ↔
      (execMembers g.commands g.abortOnFailure (clearedM m c)).2.1 =
        List.replicate g.commands.length true) ∧
    (∀ (m : CommandManager) (g : CommandGroup) (c : Bool),
      g.abortOnFailure = false →
      (execMembers g.commands g.abortOnFailure (clearedM m c)).2.1.length =
        g.commands.length) ∧
    (∀ (m : CommandManager) (g : CommandGroup) (a c hE : Bool),
      (ExecuteCommandGroup m g a c hE).1.extState =
      (execMembers g.commands g.abortOnFailure (clearedM m c)).1.extState) := by
  refine ⟨?_, ?_, ?_⟩
  · intro m g a c hE
    constructor
    · intro hs
      have hall : (execMembers g.commands g.abortOnFailure (clearedM m c)).2.1.all id
          = true := hs
      refine List.eq_replicate_iff.mpr
        ⟨execMembers_all_true_length g.commands g.abortOnFailure (clearedM m c) hall, ?_⟩
      intro b hb
      exact List.all_eq_true.mp hall b hb
    · intro hrep
      show (execMembers g.commands g.abortOnFailure (clearedM m c)).2.1.all id = true
      rw [hrep]
      simp
  · intro m g c hab
    rw [hab]
    exact execMembers_noabort_length g.commands (clearedM m c)
  · intro m g a c hE
    cases hok : (execMembers g.commands g.abortOnFailure (clearedM m c)).2.1.all id with
    | false =>
      rw [executeCommandGroup_failed m g a c hE hok]
      obtain ⟨-, -, -, -, -, s6⟩ :=
        showErrorReport_frame (execMembers g.commands g.abortOnFailure (clearedM m c)).1
      cases hE
      · rfl
      · exact s6
    | true =>
      show (let r := execMembers g.commands g.abortOnFailure (clearedM m c)
            let ok := r.2.1.all id
            let m2 := if ok && a then PushCommandHistory r.1 (.group r.2.2) else r.1
            (if hE then (ShowErrorReport m2).1 else m2, ok,
             if ok then "OK" else "GroupError")).1.extState =
          (execMembers g.commands g.abortOnFailure (clearedM m c)).1.extState
      simp only [hok, Bool.true_and]
      obtain ⟨-, -, -, -, -, s6⟩ :=
        showErrorReport_frame (if a
          then PushCommandHistory (execMembers g.commands g.abortOnFailure (clearedM m c)).1
            (.group (execMembers g.commands g.abortOnFailure (clearedM m c)).2.2)
          else (execMembers g.commands g.abortOnFailure (clearedM m c)).1)
      have hpush : (if a
          then PushCommandHistory (execMembers g.commands g.abortOnFailure (clearedM m c)).1
            (.group (execMembers g.commands g.abortOnFailure (clearedM m c)).2.2)
          else (execMembers g.commands g.abortOnFailure (clearedM m c)).1).extState =
          (execMembers g.commands g.abortOnFailure (clearedM m c)).1.extState := by
        cases a
        · rfl
        · exact pushCommandHistory_extState _ _
      cases hE
      · exact hpush
      · exact s6.trans hpush

/-- Witness for C8: the demo group is not abort-on-failure configured,
so both of its members are attempted. -/
theorem c8_witness :
    (demoGroup.abortOnFailure = false) ∧
    (execMembers demoGroup.commands demoGroup.abortOnFailure
        (clearedM initialManager true)).2.1.length = demoGroup.commands.length :=
  ⟨rfl, c8_group_execution_semantics.2.1 initialManager demoGroup true rfl⟩

/-- One `Undo` call acts on the history core as `undoCore`. -/
theorem undoStep_core (m : CommandManager) : coreOf (undoStep m) = undoCore (coreOf m) := by
  unfold undoStep Undo undoCore coreOf
  simp only
  cases hg : (if 0 ≤ m.mHistoryIndex then m.mCommandHistory[m.mHistoryIndex.toNat]? else none) with
  | none => rfl
  | some e =>
    simp only
    cases entryUndo e.data m.extState <;> rfl

/-- One `Redo` call acts on the history core as `redoCore`. -/
theorem redoStep_core (m : CommandManager) : coreOf (redoStep m) = redoCore (coreOf m) := by
  unfold redoStep Redo redoCore coreOf
  simp only
  cases hg : (if -1 ≤ m.mHistoryIndex
      then m.mCommandHistory[(m.mHistoryIndex + 1).toNat]? else none) with
  | none => rfl
  | some e =>
    simp only
    cases entryRedo e.data m.extState <;> rfl

/-- Iterated `Undo` acts on the history core as iterated `undoCore`. -/
theorem undoStep_core_iterate (m : CommandManager) (n : Nat) :
    coreOf (undoStep^[n] m) = undoCore^[n] (coreOf m) := by
  induction n with
  | zero => rfl
  | succ k ih =>
    rw [Function.iterate_succ_apply', Function.iterate_succ_apply', undoStep_core, ih]

/-- Iterated `Redo` acts on the history core as iterated `redoCore`. -/
theorem redoStep_core_iterate (m : CommandManager) (n : Nat) :
    coreOf (redoStep^[n] m) = redoCore^[n] (coreOf m) := by
  induction n with
  | zero => rfl
  | succ k ih =>
    rw [Function.iterate_succ_apply', Function.iterate_succ_apply', redoStep_core, ih]

/-- Core round trip: undoing N correctly undoable entries and then
redoing N times restores the history core exactly. -/
theorem roundtrip_core (N : Nat) :
    ∀ (h : List CommandHistoryEntry) (idx : Int) (s : ExtState),
      (∀ e ∈ h, EntryRoundtrips e) →
      (N : Int) ≤ idx + 1 →
      idx < (h.length : Int) →
      redoCore^[N] (undoCore^[N] (h, idx, s)) = (h, idx, s) := by
  induction N with
  | zero => intro h idx s _ _ _; rfl
  | succ k ih =>
    intro h idx s hall hN hlen
    have hidx0 : 0 ≤ idx := by omega
    have hlt : idx.toNat < h.length := by omega
    have hget : h[idx.toNat]? = some h[idx.toNat] := by
      simp [List.getElem?_eq_getElem hlt]
    have hmem : h[idx.toNat] ∈ h := List.getElem_mem hlt
    obtain ⟨s', hu, hr⟩ := hall _ hmem s
    have hstep : undoCore (h, idx, s) = (h, idx - 1, s') := by
      unfold undoCore
      simp only [if_pos hidx0, hget, hu]
    rw [Function.iterate_succ_apply' redoCore k, Function.iterate_succ_apply undoCore k,
      hstep, ih h (idx - 1) s' hall (by omega) (by omega)]
    unfold redoCore
    have hplus : idx - 1 + 1 = idx := by omega
    simp only [hplus, if_pos (by omega : (-1 : Int) ≤ idx - 1), hget, hr]

/-- C1: after a history of correctly undoable entries, calling `Undo` N
times and then `Redo` N times restores the manager to the same history
cursor position, the same observable external state, and the same stored
history as before the undos. -/
theorem c1_undo_redo_roundtrip (m : CommandManager) (N : Nat)
    (hall : ∀ e ∈ m.mCommandHistory, EntryRoundtrips e)
    (hN : (N : Int) ≤ m.mHistoryIndex + 1)
    (hlen : m.mHistoryIndex < (m.mCommandHistory.length : Int)) :
    (redoStep^[N] (undoStep^[N] m)).mHistoryIndex = m.mHistoryIndex ∧
    (redoStep^[N] (undoStep^[N] m)).extState = m.extState ∧
    (redoStep^[N] (undoStep^[N] m)).mCommandHistory = m.mCommandHistory := by
  have hcore : coreOf (redoStep^[N] (undoStep^[N] m)) =
      (m.mCommandHistory, m.mHistoryIndex, m.extState) := by
    rw [redoStep_core_iterate, undoStep_core_iterate]
    exact roundtrip_core N m.mCommandHistory m.mHistoryIndex m.extState hall hN hlen
  refine ⟨?_, ?_, ?_⟩
  · exact congrArg (fun c : HistCore => c.2.1) hcore
  · exact congrArg (fun c : HistCore => c.2.2) hcore
  · exact congrArg (fun c : HistCore => c.1) hcore

/-- Witness for C1: undoing and redoing once around a single executed
`inc` command restores cursor, external state and history. -/
theorem c1_witness :
    (∀ e ∈ c1Manager.mCommandHistory, EntryRoundtrips e) ∧
    ((1 : Int) ≤ c1Manager.mHistoryIndex + 1) ∧
    (c1Manager.mHistoryIndex < (c1Manager.mCommandHistory.length : Int)) ∧
    ((redoStep^[1] (undoStep^[1] c1Manager)).mHistoryIndex = c1Manager.mHistoryIndex ∧
     (redoStep^[1] (undoStep^[1] c1Manager)).extState = c1Manager.extState ∧
     (redoStep^[1] (undoStep^[1] c1Manager)).mCommandHistory = c1Manager.mCommandHistory) := by
  have hall : ∀ e ∈ c1Manager.mCommandHistory, EntryRoundtrips e := by
    intro e he
    have he' : e = ⟨.single incCommand [], 1⟩ := by
      simpa [c1Manager] using he
    intro s
    refine ⟨s - 1, ?_, ?_⟩
    · rw [he']
      rfl
    · rw [he']
      show incCommand.exec [] (s - 1) = some s
      simp [incCommand]
  exact ⟨hall, by decide, by decide,
    c1_undo_redo_roundtrip c1Manager 1 hall (by decide) (by decide)⟩

/-- The history bookkeeping invariant depends only on the history, the
bound and the global counter. -/
theorem historyInv_congr {m₁ m₂ : CommandManager}
    (h1 : m₂.mCommandHistory = m₁.mCommandHistory)
    (h2 : m₂.mMaxHistoryEntries = m₁.mMaxHistoryEntries)
    (h3 : m₂.m_totalNumHistoryItems = m₁.m_totalNumHistoryItems)
    (hm : HistoryInv m₁) : HistoryInv m₂ := by
  obtain ⟨a, b, c⟩ := hm
  refine ⟨?_, ?_, ?_⟩
  · rw [h1, h2]; exact a
  · rw [h1]; exact b
  · rw [h1, h3]; exact c

/-- The cursor invariant depends only on the history and the cursor. -/
theorem cursorInv_congr {m₁ m₂ : CommandManager}
    (h1 : m₂.mCommandHistory = m₁.mCommandHistory)
    (h2 : m₂.mHistoryIndex = m₁.mHistoryIndex)
    (hm : CursorInv m₁) : CursorInv m₂ := by
  obtain ⟨a, b⟩ := hm
  exact ⟨by rw [h2]; exact a, by rw [h1, h2]; exact b⟩

/-- Pushing a history entry preserves the history bookkeeping invariant:
the bound holds by eviction, and the fresh entry's number is strictly
above every stored number. -/
theorem pushCommandHistory_historyInv (m : CommandManager) (d : HistoryEntryData)
    (hm : HistoryInv m) : HistoryInv (PushCommandHistory m d) := by
  obtain ⟨hlen, hchain, hbound⟩ := hm
  refine ⟨?_, ?_, ?_⟩
  · show ((m.mCommandHistory.take (m.mHistoryIndex + 1).toNat ++
        [(⟨d, m.m_totalNumHistoryItems + 1⟩ : CommandHistoryEntry)]).drop _).length ≤
      m.mMaxHistoryEntries
    simp only [List.length_drop, List.length_append, List.length_cons, List.length_nil,
      List.length_take]
    omega
  · show List.Chain' (· < ·) (((m.mCommandHistory.take (m.mHistoryIndex + 1).toNat ++
        [(⟨d, m.m_totalNumHistoryItems + 1⟩ : CommandHistoryEntry)]).drop _).map
        (fun e => e.m_historyItemNr))
    rw [List.map_drop]
    refine List.Chain'.sublist ?_ (List.drop_sublist _ _)
    rw [List.map_append]
    rw [List.chain'_append]
    refine ⟨?_, List.chain'_singleton _, ?_⟩
    · rw [List.map_take]
      exact hchain.sublist (List.take_sublist _ _)
    · intro x hx y hy
      simp only [List.map_cons, List.map_nil, List.head?_cons, Option.mem_def,
        Option.some.injEq] at hy
      have hxmem : x ∈ (m.mCommandHistory.take (m.mHistoryIndex + 1).toNat).map
          (fun e => e.m_historyItemNr) := List.mem_of_mem_getLast? hx
      obtain ⟨e, he, hex⟩ := List.mem_map.mp hxmem
      have : e ∈ m.mCommandHistory := List.take_subset _ _ he
      have := hbound e this
      omega
  · intro e he
    show e.m_historyItemNr ≤ m.m_totalNumHistoryItems + 1
    have he2 : e ∈ m.mCommandHistory.take (m.mHistoryIndex + 1).toNat ++
        [(⟨d, m.m_totalNumHistoryItems + 1⟩ : CommandHistoryEntry)] :=
      List.drop_subset _ _ he
    rcases List.mem_append.mp he2 with h | h
    · have := hbound e (List.take_subset _ _ h)
      omega
    · rw [List.mem_singleton.mp h]

/-- Pushing a history entry always re-establishes the cursor invariant:
the cursor ends on the tail of the (possibly evicted) history. -/
theorem pushCommandHistory_cursorInv (m : CommandManager) (d : HistoryEntryData) :
    CursorInv (PushCommandHistory m d) := by
  unfold PushCommandHistory CursorInv
  simp only [List.length_drop, List.length_append, List.length_cons, List.length_nil]
  constructor <;> omega

/-- Popping the oldest entry preserves the history bookkeeping invariant. -/
theorem popCommandHistory_historyInv (m : CommandManager)
    (hm : HistoryInv m) : HistoryInv (PopCommandHistory m) := by
  obtain ⟨hlen, hchain, hbound⟩ := hm
  unfold PopCommandHistory
  cases hh : m.mCommandHistory with
  | nil => exact ⟨hlen, hchain, hbound⟩
  | cons hd tl =>
    rw [hh] at hlen hchain
    refine ⟨?_, ?_, ?_⟩
    · show tl.length ≤ m.mMaxHistoryEntries
      simp only [List.length_cons] at hlen
      omega
    · exact hchain.tail
    · intro e he
      exact hbound e (by rw [hh]; exact List.mem_cons_of_mem _ he)

/-- Popping the oldest entry preserves the cursor invariant. -/
theorem popCommandHistory_cursorInv (m : CommandManager)
    (hm : CursorInv m) : CursorInv (PopCommandHistory m) := by
  obtain ⟨h1, h2⟩ := hm
  unfold PopCommandHistory
  cases hh : m.mCommandHistory with
  | nil => exact ⟨h1, h2⟩
  | cons hd tl =>
    rw [hh] at h2
    simp only [List.length_cons] at h2
    constructor
    · show -1 ≤ max (m.mHistoryIndex - 1) (-1)
      omega
    · show max (m.mHistoryIndex - 1) (-1) < (tl.length : Int)
      omega

/-- Shrinking the history bound preserves the bookkeeping invariant. -/
theorem setMaxHistoryItems_historyInv (m : CommandManager) (n : Nat)
    (hm : HistoryInv m) : HistoryInv (SetMaxHistoryItems m n) := by
  obtain ⟨hlen, hchain, hbound⟩ := hm
  refine ⟨?_, ?_, ?_⟩
  · show (m.mCommandHistory.drop _).length ≤ n
    simp only [List.length_drop]
    omega
  · show List.Chain' (· < ·) ((m.mCommandHistory.drop _).map (fun e => e.m_historyItemNr))
    rw [List.map_drop]
    exact hchain.sublist (List.drop_sublist _ _)
  · intro e he
    exact hbound e (List.drop_subset _ _ he)

/-- Shrinking the history bound preserves the cursor invariant. -/
theorem setMaxHistoryItems_cursorInv (m : CommandManager) (n : Nat)
    (hm : CursorInv m) : CursorInv (SetMaxHistoryItems m n) := by
  obtain ⟨h1, h2⟩ := hm
  unfold SetMaxHistoryItems CursorInv
  simp only [List.length_drop]
  constructor <;> push_cast <;> omega

/-- Undo touches neither the stored history nor the bookkeeping fields. -/
theorem undo_frame (m : CommandManager) :
    (Undo m).1.mCommandHistory = m.mCommandHistory ∧
    (Undo m).1.mRegisteredCommands = m.mRegisteredCommands ∧
    (Undo m).1.mMaxHistoryEntries = m.mMaxHistoryEntries ∧
    (Undo m).1.m_totalNumHistoryItems = m.m_totalNumHistoryItems := by
  unfold Undo
  cases (if 0 ≤ m.mHistoryIndex then m.mCommandHistory[m.mHistoryIndex.toNat]? else none) with
  | none => exact ⟨rfl, rfl, rfl, rfl⟩
  | some e =>
    simp only
    cases entryUndo e.data m.extState <;> exact ⟨rfl, rfl, rfl, rfl⟩

/-- Redo touches neither the stored history nor the bookkeeping fields. -/
theorem redo_frame (m : CommandManager) :
    (Redo m).1.mCommandHistory = m.mCommandHistory ∧
    (Redo m).1.mRegisteredCommands = m.mRegisteredCommands ∧
    (Redo m).1.mMaxHistoryEntries = m.mMaxHistoryEntries ∧
    (Redo m).1.m_totalNumHistoryItems = m.m_totalNumHistoryItems := by
  unfold Redo
  cases (if -1 ≤ m.mHistoryIndex
      then m.mCommandHistory[(m.mHistoryIndex + 1).toNat]? else none) with
  | none => exact ⟨rfl, rfl, rfl, rfl⟩
  | some e =>
    simp only
    cases entryRedo e.data m.extState <;> exact ⟨rfl, rfl, rfl, rfl⟩

/-- Registration touches only the registry. -/
theorem registerCommand_frame (m : CommandManager) (c : Command) :
    (RegisterCommand m c).1.mCommandHistory = m.mCommandHistory ∧
    (RegisterCommand m c).1.mHistoryIndex = m.mHistoryIndex ∧
    (RegisterCommand m c).1.mMaxHistoryEntries = m.mMaxHistoryEntries ∧
    (RegisterCommand m c).1.m_totalNumHistoryItems = m.m_totalNumHistoryItems := by
  unfold RegisterCommand
  cases FindCommand m c.name <;> exact ⟨rfl, rfl, rfl, rfl⟩

/-- Branch equation: a successful execution runs the callbacks, applies
the command's effect and pushes a history entry when requested. -/
theorem executeCommand_success_eq (m : CommandManager) (t name : String)
    (params : CommandLine) (cmd : Command) (s : ExtState) (a c hE : Bool)
    (hp : parseCommand t = some (name, params))
    (hf : FindCommand m name = some cmd)
    (hx : cmd.exec params m.extState = some s) :
    ExecuteCommand m t a c hE =
      (let m2 := logCallback
          { logCallback (clearedM m c) ("preExec " ++ cmd.name) with extState := s }
          ("postExec " ++ cmd.name)
       let m3 := if a && cmd.isUndoable
                 then PushCommandHistory m2 (.single cmd params) else m2
       (if hE then (ShowErrorReport m3).1 else m3, true, "OK")) := by
  unfold ExecuteCommand
  simp only [hp, clearedM_findCommand, hf, clearedM_extState, hx]

/-- Finishing a successful invocation (optional push, then optional
error report) preserves the history bookkeeping invariant. -/
theorem historyInv_finish (m0 mbase : CommandManager) (d : HistoryEntryData) (b hE : Bool)
    (h1 : mbase.mCommandHistory = m0.mCommandHistory)
    (h2 : mbase.mMaxHistoryEntries = m0.mMaxHistoryEntries)
    (h3 : mbase.m_totalNumHistoryItems = m0.m_totalNumHistoryItems)
    (hm : HistoryInv m0) :
    HistoryInv (if hE then (ShowErrorReport
        (if b then PushCommandHistory mbase d else mbase)).1
      else (if b then PushCommandHistory mbase d else mbase)) := by
  have hbase : HistoryInv mbase := historyInv_congr h1 h2 h3 hm
  have hif : HistoryInv (if b then PushCommandHistory mbase d else mbase) := by
    cases b
    · exact hbase
    · exact pushCommandHistory_historyInv mbase d hbase
  cases hE
  · exact hif
  · obtain ⟨s1, -, -, s4, s5, -⟩ :=
      showErrorReport_frame (if b then PushCommandHistory mbase d else mbase)
    exact historyInv_congr s1 s4 s5 hif

/-- Finishing a successful invocation (optional push, then optional
error report) preserves the cursor invariant. -/
theorem cursorInv_finish (m0 mbase : CommandManager) (d : HistoryEntryData) (b hE : Bool)
    (h1 : mbase.mCommandHistory = m0.mCommandHistory)
    (h2 : mbase.mHistoryIndex = m0.mHistoryIndex)
    (hm : CursorInv m0) :
    CursorInv (if hE then (ShowErrorReport
        (if b then PushCommandHistory mbase d else mbase)).1
      else (if b then PushCommandHistory mbase d else mbase)) := by
  have hif : CursorInv (if b then PushCommandHistory mbase d else mbase) := by
    cases b
    · exact cursorInv_congr h1 h2 hm
    · exact pushCommandHistory_cursorInv mbase d
  cases hE
  · exact hif
  · obtain ⟨s1, -, s3, -, -, -⟩ :=
      showErrorReport_frame (if b then PushCommandHistory mbase d else mbase)
    exact cursorInv_congr s1 s3 hif

/-- Every public operation preserves the history bookkeeping invariant. -/
theorem applyOp_historyInv (m : CommandManager) (op : Op) (hm : HistoryInv m) :
    HistoryInv (applyOp m op) := by
  cases op with
  | exec t a c hE =>
    show HistoryInv (ExecuteCommand m t a c hE).1
    obtain ⟨f1, -, -, f4, f5, -⟩ := clearedM_frame m c
    cases hp : parseCommand t with
    | none =>
      rw [executeCommand_parse_none m t a c hE hp]
      obtain ⟨s1, -, -, s4, s5, -⟩ := showErrorReport_frame (clearedM m c)
      cases hE
      · exact historyInv_congr f1 f4 f5 hm
      · exact historyInv_congr (s1.trans f1) (s4.trans f4) (s5.trans f5) hm
    | some np =>
      obtain ⟨name, params⟩ := np
      cases hf : FindCommand m name with
      | none =>
        rw [executeCommand_unknown m t name params a c hE hp hf]
        obtain ⟨s1, -, -, s4, s5, -⟩ :=
          showErrorReport_frame (AddError (clearedM m c) (UnknownCommandMsg name))
        cases hE
        · exact historyInv_congr f1 f4 f5 hm
        · exact historyInv_congr (s1.trans f1) (s4.trans f4) (s5.trans f5) hm
      | some cmd =>
        cases hx : cmd.exec params m.extState with
        | none =>
          rw [executeCommand_exec_failed m t name params cmd a c hE hp hf hx]
          obtain ⟨s1, -, -, s4, s5, -⟩ :=
            showErrorReport_frame (AddError
              (logCallback (logCallback (clearedM m c) ("preExec " ++ cmd.name))
                ("postExec " ++ cmd.name)) (ExecErrorMsg cmd.name))
          cases hE
          · exact historyInv_congr f1 f4 f5 hm
          · exact historyInv_congr (s1.trans f1) (s4.trans f4) (s5.trans f5) hm
        | some s =>
          rw [executeCommand_success_eq m t name params cmd s a c hE hp hf hx]
          exact historyInv_finish m
            (logCallback { logCallback (clearedM m c) ("preExec " ++ cmd.name) with
              extState := s } ("postExec " ++ cmd.name))
            (.single cmd params) (a && cmd.isUndoable) hE f1 f4 f5 hm
  | execGroup g a c hE =>
    show HistoryInv (ExecuteCommandGroup m g a c hE).1
    obtain ⟨f1, -, -, f4, f5, -⟩ := clearedM_frame m c
    obtain ⟨e1, -, -, e4, e5⟩ :=
      execMembers_frame g.commands g.abortOnFailure (clearedM m c)
    exact historyInv_finish m
      (execMembers g.commands g.abortOnFailure (clearedM m c)).1
      (.group (execMembers g.commands g.abortOnFailure (clearedM m c)).2.2)
      ((execMembers g.commands g.abortOnFailure (clearedM m c)).2.1.all id && a) hE
      (e1.trans f1) (e4.trans f4) (e5.trans f5) hm
  | undo =>
    obtain ⟨u1, -, u3, u4⟩ := undo_frame m
    exact historyInv_congr u1 u3 u4 hm
  | redo =>
    obtain ⟨r1, -, r3, r4⟩ := redo_frame m
    exact historyInv_congr r1 r3 r4 hm
  | register c =>
    obtain ⟨g1, -, g3, g4⟩ := registerCommand_frame m c
    exact historyInv_congr g1 g3 g4 hm
  | setMax n => exact setMaxHistoryItems_historyInv m n hm
  | addErr s => exact hm
  | report =>
    obtain ⟨s1, -, -, s4, s5, -⟩ := showErrorReport_frame m
    exact historyInv_congr s1 s4 s5 hm
  | clearHist =>
    refine ⟨?_, ?_, ?_⟩
    · show ([] : List CommandHistoryEntry).length ≤ m.mMaxHistoryEntries
      simp
    · show List.Chain' (· < ·)
        (([] : List CommandHistoryEntry).map (fun e => e.m_historyItemNr))
      simp
    · intro e he
      exact absurd he (List.not_mem_nil e)
  | pop => exact popCommandHistory_historyInv m hm

/-- Every public operation preserves the cursor invariant. -/
theorem applyOp_cursorInv (m : CommandManager) (op : Op) (hm : CursorInv m) :
    CursorInv (applyOp m op) := by
  cases op with
  | exec t a c hE =>
    show CursorInv (ExecuteCommand m t a c hE).1
    obtain ⟨f1, -, f3, -, -, -⟩ := clearedM_frame m c
    cases hp : parseCommand t with
    | none =>
      rw [executeCommand_parse_none m t a c hE hp]
      obtain ⟨s1, -, s3, -, -, -⟩ := showErrorReport_frame (clearedM m c)
      cases hE
      · exact cursorInv_congr f1 f3 hm
      · exact cursorInv_congr (s1.trans f1) (s3.trans f3) hm
    | some np =>
      obtain ⟨name, params⟩ := np
      cases hf : FindCommand m name with
      | none =>
        rw [executeCommand_unknown m t name params a c hE hp hf]
        obtain ⟨s1, -, s3, -, -, -⟩ :=
          showErrorReport_frame (AddError (clearedM m c) (UnknownCommandMsg name))
        cases hE
        · exact cursorInv_congr f1 f3 hm
        · exact cursorInv_congr (s1.trans f1) (s3.trans f3) hm
      | some cmd =>
        cases hx : cmd.exec params m.extState with
        | none =>
          rw [executeCommand_exec_failed m t name params cmd a c hE hp hf hx]
          obtain ⟨s1, -, s3, -, -, -⟩ :=
            showErrorReport_frame (AddError
              (logCallback (logCallback (clearedM m c) ("preExec " ++ cmd.name))
                ("postExec " ++ cmd.name)) (ExecErrorMsg cmd.name))
          cases hE
          · exact cursorInv_congr f1 f3 hm
          · exact cursorInv_congr (s1.trans f1) (s3.trans f3) hm
        | some s =>
          rw [executeCommand_success_eq m t name params cmd s a c hE hp hf hx]
          exact cursorInv_finish m
            (logCallback { logCallback (clearedM m c) ("preExec " ++ cmd.name) with
              extState := s } ("postExec " ++ cmd.name))
            (.single cmd params) (a && cmd.isUndoable) hE f1 f3 hm
  | execGroup g a c hE =>
    show CursorInv (ExecuteCommandGroup m g a c hE).1
    obtain ⟨f1, -, f3, -, -, -⟩ := clearedM_frame m c
    obtain ⟨e1, -, e3, -, -⟩ :=
      execMembers_frame g.commands g.abortOnFailure (clearedM m c)
    exact cursorInv_finish m
      (execMembers g.commands g.abortOnFailure (clearedM m c)).1
      (.group (execMembers g.commands g.abortOnFailure (clearedM m c)).2.2)
      ((execMembers g.commands g.abortOnFailure (clearedM m c)).2.1.all id && a) hE
      (e1.trans f1) (e3.trans f3) hm
  | undo =>
    show CursorInv (Undo m).1
    unfold Undo
    cases hg : (if 0 ≤ m.mHistoryIndex
        then m.mCommandHistory[m.mHistoryIndex.toNat]? else none) with
    | none => exact hm
    | some e =>
      simp only
      cases hu : entryUndo e.data m.extState with
      | none => exact hm
      | some s2 =>
        have h0 : 0 ≤ m.mHistoryIndex := by
          by_contra hneg
          rw [if_neg hneg] at hg
          exact Option.noConfusion hg
        have hlt : m.mHistoryIndex.toNat < m.mCommandHistory.length := by
          rw [if_pos h0] at hg
          obtain ⟨hw, -⟩ := List.getElem?_eq_some.mp hg
          exact hw
        constructor
        · show -1 ≤ m.mHistoryIndex - 1
          omega
        · show m.mHistoryIndex - 1 < (m.mCommandHistory.length : Int)
          omega
  | redo =>
    show CursorInv (Redo m).1
    unfold Redo
    cases hg : (if -1 ≤ m.mHistoryIndex
        then m.mCommandHistory[(m.mHistoryIndex + 1).toNat]? else none) with
    | none => exact hm
    | some e =>
      simp only
      cases hu : entryRedo e.data m.extState with
      | none => exact hm
      | some s2 =>
        have h0 : -1 ≤ m.mHistoryIndex := by
          by_contra hneg
          rw [if_neg hneg] at hg
          exact Option.noConfusion hg
        have hlt : (m.mHistoryIndex + 1).toNat < m.mCommandHistory.length := by
          rw [if_pos h0] at hg
          obtain ⟨hw, -⟩ := List.getElem?_eq_some.mp hg
          exact hw
        constructor
        · show -1 ≤ m.mHistoryIndex + 1
          omega
        · show m.mHistoryIndex + 1 < (m.mCommandHistory.length : Int)
          omega
  | register c =>
    obtain ⟨g1, g2, -, -⟩ := registerCommand_frame m c
    exact cursorInv_congr g1 g2 hm
  | setMax n => exact setMaxHistoryItems_cursorInv m n hm
  | addErr s => exact hm
  | report =>
    obtain ⟨s1, -, s3, -, -, -⟩ := showErrorReport_frame m
    exact cursorInv_congr s1 s3 hm
  | clearHist =>
    exact ⟨le_refl _, by show (-1 : Int) < (([] : List CommandHistoryEntry).length : Int); decide⟩
  | pop => exact popCommandHistory_cursorInv m hm

/-- Operation sequences preserve the history bookkeeping invariant. -/
theorem applyOps_historyInv (ops : List Op) :
    ∀ (m : CommandManager), HistoryInv m → HistoryInv (applyOps ops m) := by
  induction ops with
  | nil => intro m hm; exact hm
  | cons o rest ih =>
    intro m hm
    exact ih (applyOp m o) (applyOp_historyInv m o hm)

/-- Operation sequences preserve the cursor invariant. -/
theorem applyOps_cursorInv (ops : List Op) :
    ∀ (m : CommandManager), CursorInv m → CursorInv (applyOps ops m) := by
  induction ops with
  | nil => intro m hm; exact hm
  | cons o rest ih =>
    intro m hm
    exact ih (applyOp m o) (applyOp_cursorInv m o hm)

/-- C3: every public operation keeps the number of stored history
entries at or below the configured bound with strictly increasing, never
reused `historyItemNr` values (so the invariant holds in every state
reachable from the fresh manager), and pushing onto a full history with
the cursor at the tail evicts exactly the oldest entry (FIFO). -/
theorem c3_history_bounded_and_monotone :
    (∀ (m : CommandManager) (ops : List Op),
      HistoryInv m → HistoryInv (applyOps ops m)) ∧
    (∀ (ops : List Op), HistoryInv (applyOps ops initialManager)) ∧
    (∀ (m : CommandManager) (d : HistoryEntryData),
      m.mHistoryIndex + 1 = (m.mCommandHistory.length : Int) →
      m.mCommandHistory.length = m.mMaxHistoryEntries →
      0 < m.mMaxHistoryEntries →
      (PushCommandHistory m d).mCommandHistory =
        m.mCommandHistory.drop 1 ++
          [⟨d, m.m_totalNumHistoryItems + 1⟩]) := by
  refine ⟨fun m ops hm => applyOps_historyInv ops m hm,
    fun ops => applyOps_historyInv ops initialManager ⟨by decide, by decide, by decide⟩, ?_⟩
  intro m d h1 h2 h3
  show (m.mCommandHistory.take (m.mHistoryIndex + 1).toNat ++
      [(⟨d, m.m_totalNumHistoryItems + 1⟩ : CommandHistoryEntry)]).drop _ =
    m.mCommandHistory.drop 1 ++ [⟨d, m.m_totalNumHistoryItems + 1⟩]
  have htake : (m.mHistoryIndex + 1).toNat = m.mCommandHistory.length := by omega
  rw [htake, List.take_length]
  have harith : (m.mCommandHistory ++
      [(⟨d, m.m_totalNumHistoryItems + 1⟩ : CommandHistoryEntry)]).length -
      min (m.mCommandHistory ++
        [(⟨d, m.m_totalNumHistoryItems + 1⟩ : CommandHistoryEntry)]).length
        m.mMaxHistoryEntries = 1 := by
    simp only [List.length_append, List.length_cons, List.length_nil]
    omega
  rw [harith, List.drop_append_of_le_length (by omega)]

/-- Witness for C3: the fresh manager satisfies the invariant, the
invariant survives a register-and-execute sequence, and pushing onto the
full two-entry manager drops the oldest entry. -/
theorem c3_witness :
    HistoryInv initialManager ∧
    HistoryInv (applyOps [Op.register incCommand, Op.exec "inc" true true true]
      initialManager) ∧
    (c3FullManager.mHistoryIndex + 1 = (c3FullManager.mCommandHistory.length : Int)) ∧
    (c3FullManager.mCommandHistory.length = c3FullManager.mMaxHistoryEntries) ∧
    (0 < c3FullManager.mMaxHistoryEntries) ∧
    (PushCommandHistory c3FullManager (.single incCommand [])).mCommandHistory =
      c3FullManager.mCommandHistory.drop 1 ++
        [⟨.single incCommand [], c3FullManager.m_totalNumHistoryItems + 1⟩] := by
  have hinv : HistoryInv initialManager := ⟨by decide, by decide, by decide⟩
  exact ⟨hinv,
    c3_history_bounded_and_monotone.1 initialManager
      [Op.register incCommand, Op.exec "inc" true true true] hinv,
    by decide, by decide, by decide,
    c3_history_bounded_and_monotone.2.2 c3FullManager (.single incCommand [])
      (by decide) (by decide) (by decide)⟩

/-- C9 counterexample: the original claim demands `0 ≤ historyIndex`
whenever the history is non-empty, but after registering and executing
one command and undoing it, the reachable state has one stored entry and
cursor -1 (the spec's own §8 scenario). -/
theorem c9_counterexample :
    (applyOps [Op.register incCommand, Op.exec "inc" true true true, Op.undo]
        initialManager).mCommandHistory.length = 1 ∧
    (applyOps [Op.register incCommand, Op.exec "inc" true true true, Op.undo]
        initialManager).mHistoryIndex = -1 ∧
    ¬ (0 ≤ (applyOps [Op.register incCommand, Op.exec "inc" true true true, Op.undo]
        initialManager).mHistoryIndex) := by
  refine ⟨rfl, rfl, ?_⟩
  intro hcontra
  rw [show (applyOps [Op.register incCommand, Op.exec "inc" true true true, Op.undo]
      initialManager).mHistoryIndex = -1 from rfl] at hcontra
  exact absurd hcontra (by decide)

/-- C9 (amended): in every state reachable from the fresh manager the
cursor satisfies `-1 ≤ historyIndex < size`: while entries exist the
cursor either points at a valid stored entry or is the before-first
sentinel -1, and every single operation preserves this. -/
theorem c9_cursor_bounds_amended :
    (∀ (m : CommandManager) (op : Op), CursorInv m → CursorInv (applyOp m op)) ∧
    (∀ (ops : List Op), CursorInv (applyOps ops initialManager)) := by
  refine ⟨applyOp_cursorInv, ?_⟩
  intro ops
  exact applyOps_cursorInv ops initialManager ⟨by decide, by decide⟩

/-- Witness for C9: the fresh manager satisfies the cursor bounds, and
they survive a register operation. -/
theorem c9_witness :
    CursorInv initialManager ∧
    CursorInv (applyOp initialManager (Op.register incCommand)) :=
  ⟨⟨by decide, by decide⟩,
   c9_cursor_bounds_amended.1 initialManager (Op.register incCommand)
     ⟨by decide, by decide⟩⟩

end MCore
